import Mathlib

/-!
Verification of the deno build script (`packages/deno/scripts/build.ts`).

The script repackages the source tree for the Deno runtime: it walks the
package directories, rewrites every import/export module specifier via an
ordered filesystem fallback search plus a static mapping table
(`moduleMap`), and emits the transformed files under a fresh output root.

This development shallowly embeds the script:

* Node `path` operations (`resolve`, `relative`, `dirname`, `join`) are
  modelled over POSIX-style path strings, represented internally as lists
  of `/`-separated segments;
* the synchronous filesystem probes (`existsSync`, `statSync(..).isDirectory`)
  are modelled by a finite filesystem state `FS` listing file and directory
  paths;
* the specifier resolution logic of `importTransformer` becomes the pure
  function `resolveModuleSpecifier`, returning `Except` for the thrown
  resolution errors;
* the AST visitor becomes `visitTsNode` over a small syntax-tree type
  `TsNode`, and the orchestrator (`build`) becomes `buildOps`, which lists
  the filesystem effects of a run.

JavaScript's `String.prototype.replace` with a string pattern replaces only
the first occurrence; `stripFirst` mirrors that.  `path.relative` resolves
relative arguments against the process working directory, so the embedding
threads an explicit `cwd` parameter wherever the script calls it.
-/

deriving instance DecidableEq for Except

namespace DenoBuild

/-! ## Characters and strings -/

/-- Decides whether `pat` is a leading run of `l` (a boolean prefix test
on character lists). -/
def chPre : List Char → List Char → Bool
  | [], _ => true
  | _ :: _, [] => false
  | a :: as, b :: bs => a == b && chPre as bs

/-- Decides whether `pat` occurs contiguously inside `l`. -/
def containsSub : List Char → List Char → Bool
  | [], pat => chPre pat []
  | c :: cs, pat => chPre pat (c :: cs) || containsSub cs pat

/-- String-level substring test: `sub` occurs contiguously inside `s`. -/
def containsStr (s sub : String) : Bool :=
  containsSub s.toList sub.toList

/-- Models JavaScript `s.startsWith(c)` for a single character `c`. -/
def strStarts (s : String) (c : Char) : Bool :=
  s.toList.head? == some c

/-- Models JavaScript `s.endsWith(suffixStr)`. -/
def strEnds (s suffixStr : String) : Bool :=
  chPre suffixStr.toList.reverse s.toList.reverse

/-- Removes the first occurrence of `pat` from the character list (the
behaviour of JavaScript `replace(pat, '')` with a string pattern). -/
def stripFirstCh : List Char → List Char → List Char
  | [], _ => []
  | c :: cs, pat =>
    if chPre pat (c :: cs) then List.drop pat.length (c :: cs)
    else c :: stripFirstCh cs pat

/-- String-level first-occurrence removal, modelling
`s.replace(pat, '')` of JavaScript. -/
def stripFirst (s pat : String) : String :=
  String.mk (stripFirstCh s.toList pat.toList)

/-- Models the regex rewrite `s.replace(/^([^\.])/, './$1')`: when the
string is nonempty and does not already start with a dot, a same-directory
marker is prepended. -/
def addDotSlash (s : String) : String :=
  match s.toList with
  | [] => s
  | c :: _ => if c = '.' then s else "./" ++ s

/-! ## Path segments -/

/-- Splits a character list at every slash; slashes are dropped and the
(possibly empty) groups between them are kept. -/
def splitSlash : List Char → List (List Char)
  | [] => [[]]
  | c :: cs =>
    if c = '/' then [] :: splitSlash cs
    else
      match splitSlash cs with
      | [] => [[c]]
      | g :: gs => (c :: g) :: gs

/-- Interleaves slashes between the groups. -/
def joinSlash : List (List Char) → List Char
  | [] => []
  | g :: gs =>
    match gs with
    | [] => g
    | _ :: _ => g ++ '/' :: joinSlash gs

/-- The nonempty groups of a character list split at slashes, as strings. -/
def charSegs (l : List Char) : List String :=
  ((splitSlash l).filter (fun g => !g.isEmpty)).map (fun g => String.mk g)

/-- The nonempty `/`-separated segments of a path string. -/
def splitSegs (p : String) : List String :=
  charSegs p.toList

/-- Joins segments into a relative path string (no leading slash). -/
def joinRel (segs : List String) : String :=
  String.mk (joinSlash (segs.map String.toList))

/-- Joins segments into an absolute path string (leading slash). -/
def joinAbs (segs : List String) : String :=
  String.mk ('/' :: joinSlash (segs.map String.toList))

/-- A usable path segment: nonempty and slash-free. -/
def goodSeg (s : String) : Bool :=
  !s.toList.isEmpty && !s.toList.contains '/'

/-- A canonical path segment: usable and not a navigation marker. -/
def canonSeg (s : String) : Bool :=
  goodSeg s && !(s == ".") && !(s == "..")

/-- One step of path normalization: same-directory markers are dropped,
parent markers pop the accumulator (clamped at the root), plain segments
are appended. -/
def normStep (acc : List String) (seg : String) : List String :=
  if seg = "." then acc
  else if seg = ".." then acc.dropLast
  else acc ++ [seg]

/-- Normalizes a segment list interpreted from the root. -/
def normSegs (segs : List String) : List String :=
  segs.foldl normStep []

/-! ## The path module model -/

/-- Models `path.dirname` on an absolute path: all but the last segment. -/
def pathDirname (p : String) : String :=
  joinAbs (splitSegs p).dropLast

/-- Models `path.resolve(base, p)` with `base` absolute: an absolute `p`
wins, a relative `p` is appended to `base`, and the result is normalized. -/
def pathResolve (base p : String) : String :=
  if strStarts p '/' then joinAbs (normSegs (splitSegs p))
  else joinAbs (normSegs (splitSegs base ++ splitSegs p))

/-- The absolute segment list a path denotes, resolving relative paths
against the working directory `cwd` (as Node's `path` module does). -/
def absSegsOf (cwd p : String) : List String :=
  if strStarts p '/' then normSegs (splitSegs p)
  else normSegs (splitSegs cwd ++ splitSegs p)

/-- The relative walk from `f` to `t`: parent markers for the uncommon
suffix of `f`, then the uncommon suffix of `t`. -/
def relSegs : List String → List String → List String
  | [], t => t
  | a :: as, [] => List.replicate (a :: as).length ".."
  | a :: as, b :: bs =>
    if a = b then relSegs as bs
    else List.replicate (a :: as).length ".." ++ b :: bs

/-- Models `path.relative(a, b)`: both arguments are resolved against the
working directory, then the relative walk between them is joined. -/
def pathRelative (cwd a b : String) : String :=
  joinRel (relSegs (absSegsOf cwd a) (absSegsOf cwd b))

/-- Models `path.join(a, b)` for the script's use (joining a further
component onto a path and normalizing). -/
def pathJoin (a b : String) : String :=
  if strStarts a '/' then joinAbs (normSegs (splitSegs a ++ splitSegs b))
  else joinRel (splitSegs a ++ splitSegs b)

/-- A canonical absolute path: its segments are canonical and it is the
join of its own segments (no duplicate or trailing slashes, no navigation
markers). -/
def isCanonAbs (p : String) : Bool :=
  (splitSegs p).all canonSeg && p == joinAbs (splitSegs p)

/-- The last segment of a path (its file or directory name). -/
def baseName (p : String) : String :=
  (splitSegs p).getLastD ""

/-! ## Filesystem state -/

/-- A finite snapshot of the filesystem: the paths that exist as plain
files and the paths that exist as directories. -/
structure FS where
  files : List String
  dirs : List String
  deriving DecidableEq

/-- Models `existsSync p`. -/
def FS.existsSync (fsys : FS) (p : String) : Bool :=
  fsys.files.contains p || fsys.dirs.contains p

/-- Models `statSync(p).isDirectory()`. -/
def FS.statIsDir (fsys : FS) (p : String) : Bool :=
  fsys.dirs.contains p

/-- The names of the immediate children of directory `d`, modelling
`fs.readdir(d)`. -/
def FS.readdirNames (fsys : FS) (d : String) : List String :=
  ((fsys.dirs ++ fsys.files).filter (fun p => pathDirname p == d && p != d)).map baseName

/-! ## The build script's configuration constants -/

/-- The `moduleMap` table of the script: bare specifier names mapped to an
external URL or to a path relative to the package root. -/
def moduleMap : List (String × String) :=
  [("graphql", "https://cdn.skypack.dev/graphql?dts"),
   ("zod", "https://cdn.skypack.dev/zod@v1.11.17?dts"),
   ("dataloader", "https://cdn.skypack.dev/dataloader?dts"),
   ("@pothos/core", "./core/index.ts"),
   ("@pothos/plugin-directives", "./plugin-directives/index.ts"),
   ("graphql/execution/values", "https://cdn.skypack.dev/graphql/execution/values?dts")]

/-- The `excludedPackages` list of the script. -/
def excludedPackages : List String :=
  ["converter", "deno", "plugin-example", "plugin-prisma", "plugin-prisma-crud",
   "test-utils", "plugin-federation"]

/-! ## Specifier resolution (`importTransformer`, lines 107-137) -/

/-- The specifier rewrite performed by the visitor of `importTransformer`
for a module specifier `mod` found in the file `fileName`.

For a relative specifier the script resolves it against the file's
directory and applies the ordered fallback (directory, `.ts` sibling,
`.d.ts` sibling, exact file), throwing when nothing exists, and finally
re-expresses the chosen target relative to the file's directory and
prepends a same-directory marker when missing.  For a bare specifier it
consults `moduleMap`: a relative mapped value is resolved against the
package root and re-expressed relative to the file's directory with its
first `/src` substring removed; a non-relative mapped value is emitted
verbatim; an absent entry throws. -/
def resolveModuleSpecifier (fsys : FS) (packageDir cwd fileName mod : String) :
    Except String String :=
  let dirName := pathDirname fileName
  if strStarts mod '.' then
    let modulePath := pathResolve dirName mod
    let tsPath := modulePath ++ ".ts"
    let dtsPath := modulePath ++ ".d.ts"
    let chosen : Except String String :=
      if fsys.existsSync modulePath && fsys.statIsDir modulePath then
        Except.ok (pathJoin modulePath "index.ts")
      else if fsys.existsSync tsPath then Except.ok tsPath
      else if fsys.existsSync dtsPath then Except.ok dtsPath
      else if !fsys.existsSync modulePath then
        Except.error ("Unable to resolve modulePath " ++ modulePath)
      else Except.ok mod
    Except.map (fun m => addDotSlash (pathRelative cwd dirName m)) chosen
  else
    match List.lookup mod moduleMap with
    | some newMod =>
      if strStarts newMod '.' then
        Except.ok (pathRelative cwd (stripFirst dirName "/src") (pathResolve packageDir newMod))
      else Except.ok newMod
    | none => Except.error ("Unknown module " ++ mod ++ " in " ++ fileName)

/-! ## Package discovery (`getPackages`, lines 55-59) -/

/-- Models `getPackages`: the entries listed in the package root that are
not in the exclusion list.  Note the script filters the raw `readdir`
listing, which contains every child entry, files included. -/
def getPackages (fsys : FS) (root : String) : List String :=
  (fsys.readdirNames root).filter (fun e => !excludedPackages.contains e)

/-! ## Output path derivation (`loadFile`, line 62) -/

/-- Models the output path computation
`path.resolve(targetDir, path.relative(packageDir, file)).replace('/src', '')`. -/
def loadFileNewPath (packageDir targetDir cwd file : String) : String :=
  stripFirst (pathResolve targetDir (pathRelative cwd packageDir file)) "/src"

/-- Modelled from the spec: the output path per the specification's words,
"mirror the file's path under the output root, substituting the source root
prefix with the output root prefix, and removing any interior
implementation-sources (`src`) directory segment from the path".  Used only
to compare the specified derivation against the implemented one. -/
def specMirroredPath (packageDir targetDir file : String) : String :=
  joinAbs (splitSegs targetDir ++
    (((splitSegs file).drop (splitSegs packageDir).length).filter (fun s => s != "src")))

/-! ## The syntax tree and the visitor (`importTransformer`, lines 101-167) -/

/-- The module specifier expression of an import or export declaration:
either a string-literal-like node (with its quoting style) or some other
expression, which the visitor leaves alone. -/
inductive SpecExpr where
  | lit (text : String) (singleQuote : Bool)
  | nonLit (id : Nat)
  deriving DecidableEq

/-- A shallow syntax-tree node.  Import and export declarations carry the
attributes the script's factory update calls touch: the decorators,
modifiers, the import clause (resp. type-only flag and export clause), the
module specifier, and the assert clause — the factory signatures the call
arities match (TypeScript 4.5-4.7) take the assert clause as their final
parameter, which the script passes as `undefined`.  Every other node is a
kind tag with children, which `visitEachChild` recurses into. -/
inductive TsNode where
  | importDecl (decorators modifiers : List String) (importClause : Option String)
      (specifier : SpecExpr) (assertClause : Option String)
  | exportDecl (decorators modifiers : List String) (isTypeOnly : Bool)
      (exportClause : Option String) (specifier : Option SpecExpr)
      (assertClause : Option String)
  | otherNode (kind : Nat) (children : List TsNode)

mutual

/-- The visitor of `importTransformer`: rewrites the string-literal
specifier of import/export declarations through `resolveModuleSpecifier`
(recreating the literal single-quoted), passing the updated declaration's
final assert-clause argument as `undefined` — so a rewritten declaration
loses any assert clause it carried (lines 146 and 157); it recurses into
the children of other nodes and propagates a thrown resolution error. -/
def visitTsNode (fsys : FS) (packageDir cwd fileName : String) :
    TsNode → Except String TsNode
  | .importDecl d m c spec a =>
    match spec with
    | .lit t _ =>
      Except.map (fun newMod => .importDecl d m c (.lit newMod true) none)
        (resolveModuleSpecifier fsys packageDir cwd fileName t)
    | .nonLit i => Except.ok (.importDecl d m c (.nonLit i) a)
  | .exportDecl d m ty c spec a =>
    match spec with
    | some (.lit t _) =>
      Except.map (fun newMod => .exportDecl d m ty c (some (.lit newMod true)) none)
        (resolveModuleSpecifier fsys packageDir cwd fileName t)
    | _ => Except.ok (.exportDecl d m ty c spec a)
  | .otherNode k cs =>
    Except.map (fun cs2 => .otherNode k cs2) (visitTsList fsys packageDir cwd fileName cs)

/-- Visits a list of sibling nodes, stopping at the first error. -/
def visitTsList (fsys : FS) (packageDir cwd fileName : String) :
    List TsNode → Except String (List TsNode)
  | [] => Except.ok []
  | n :: ns => do
    let n2 ← visitTsNode fsys packageDir cwd fileName n
    let ns2 ← visitTsList fsys packageDir cwd fileName ns
    pure (n2 :: ns2)

end

/-! ## The orchestrator (`loadFile`, `getAllFiles`, `build`) -/

/-- The content of an output artifact: a transformed syntax tree (printed
with the `@ts-nocheck` banner), a raw byte copy, or the fixed companion
`mod.ts` template. -/
inductive FileContent where
  | transformed (nodes : List TsNode)
  | rawCopy (bytes : List Nat)
  | companion

/-- An output artifact: its output path and content (the `LoadedFile`
record of the script). -/
structure LoadedFile where
  path : String
  content : FileContent

/-- The inputs a run reads from disk: the filesystem shape, the parsed
syntax tree of each transformable source file, and the raw bytes of the
other files. -/
structure World where
  fsys : FS
  sources : String → List TsNode
  rawData : String → List Nat

/-- Models `loadFile`: a `.ts` file is parsed and transformed (failing if
any specifier fails to resolve), any other file is copied as raw bytes;
both are targeted at the derived output path. -/
def loadFileM (w : World) (packageDir targetDir cwd file : String) :
    Except String LoadedFile :=
  let newPath := loadFileNewPath packageDir targetDir cwd file
  if strEnds file ".ts" then
    Except.map (fun ns => ⟨newPath, .transformed ns⟩)
      (visitTsList w.fsys packageDir cwd file (w.sources file))
  else Except.ok ⟨newPath, .rawCopy (w.rawData file)⟩

/-- Sequences a fallible load over a list, stopping at the first error
(the observable outcome of `Promise.all` over the per-file loads). -/
def mapExcept (g : α → Except ε β) : List α → Except ε (List β)
  | [] => Except.ok []
  | x :: xs =>
    match g x with
    | Except.error e => Except.error e
    | Except.ok y =>
      match mapExcept g xs with
      | Except.error e => Except.error e
      | Except.ok ys => Except.ok (y :: ys)

/-- Models `getAllFiles`: every enumerated file is loaded (all loads are
awaited jointly, so any failure fails the whole call), then the synthetic
companion `mod.ts` entry of each package is appended.  The recursive
directory walk of `getFiles` is I/O; its result is taken here as the
`enumerated` list of file paths. -/
def getAllFilesM (w : World) (packageDir targetDir cwd : String)
    (projects enumerated : List String) : Except String (List LoadedFile) :=
  match mapExcept (loadFileM w packageDir targetDir cwd) enumerated with
  | Except.error e => Except.error e
  | Except.ok loaded =>
    Except.ok (loaded ++
      projects.map (fun dir => ⟨pathJoin (pathJoin targetDir dir) "mod.ts", .companion⟩))

/-- A filesystem effect of the orchestrator. -/
inductive FsOp where
  | rmTree (p : String)
  | mkdirRec (p : String)
  | writeF (p : String) (content : FileContent)

/-- Models `build`: the output root is removed first, then `getAllFiles`
is awaited in full; only when it succeeds does the write phase emit a
directory creation and a write per artifact.  A failed run performs no
effect beyond the initial removal (the process dies on the rejection). -/
def buildOps (w : World) (packageDir targetDir cwd : String)
    (projects enumerated : List String) : List FsOp :=
  FsOp.rmTree targetDir ::
    match getAllFilesM w packageDir targetDir cwd projects enumerated with
    | .ok files => (files.map (fun f => [FsOp.mkdirRec (pathDirname f.path), FsOp.writeF f.path f.content])).flatten
    | .error _ => []

/-! ## Basic string lemmas -/

theorem toList_mk (l : List Char) : (String.mk l).toList = l := rfl

theorem mk_toList (s : String) : String.mk s.toList = s := rfl

theorem toList_append (a b : String) : (a ++ b).toList = a.toList ++ b.toList := by
  cases a; cases b; rfl

theorem mk_append (a b : List Char) : String.mk (a ++ b) = String.mk a ++ String.mk b := by
  rfl

theorem toList_injective {a b : String} (h : a.toList = b.toList) : a = b := by
  rw [← mk_toList a, ← mk_toList b, h]

/-! ## Splitting and joining -/

theorem splitSlash_ne_nil (l : List Char) : splitSlash l ≠ [] := by
  induction l with
  | nil => simp [splitSlash]
  | cons c cs ih =>
    by_cases h : c = '/'
    · simp [splitSlash, h]
    · simp only [splitSlash, if_neg h]
      cases hs : splitSlash cs with
      | nil => exact absurd hs ih
      | cons g gs => simp

theorem splitSlash_single (g : List Char) (hg : '/' ∉ g) : splitSlash g = [g] := by
  induction g with
  | nil => rfl
  | cons c cs ih =>
    have hc : c ≠ '/' := fun h => hg (h ▸ List.mem_cons_self c cs)
    have ihcs : splitSlash cs = [cs] := ih (fun h => hg (List.mem_cons_of_mem c h))
    simp [splitSlash, hc, ihcs]

theorem splitSlash_group (g r : List Char) (hg : '/' ∉ g) :
    splitSlash (g ++ '/' :: r) = g :: splitSlash r := by
  induction g with
  | nil => simp [splitSlash]
  | cons c cs ih =>
    have hc : c ≠ '/' := fun h => hg (h ▸ List.mem_cons_self c cs)
    have ihcs := ih (fun h => hg (List.mem_cons_of_mem c h))
    simp [splitSlash, hc, ihcs]

theorem splitSlash_joinSlash (gs : List (List Char)) (h : ∀ g ∈ gs, '/' ∉ g)
    (hne : gs ≠ []) : splitSlash (joinSlash gs) = gs := by
  induction gs with
  | nil => exact absurd rfl hne
  | cons g gs' ih =>
    cases gs' with
    | nil => simpa [joinSlash] using splitSlash_single g (h g (List.mem_cons_self g []))
    | cons g2 t =>
      have hg : '/' ∉ g := h g (List.mem_cons_self g (g2 :: t))
      have htail : ∀ x ∈ g2 :: t, '/' ∉ x := fun x hx => h x (List.mem_cons_of_mem g hx)
      have : joinSlash (g :: g2 :: t) = g ++ '/' :: joinSlash (g2 :: t) := rfl
      rw [this, splitSlash_group g _ hg, ih htail (by simp)]

theorem splitSlash_groups_slashFree (l : List Char) : ∀ g ∈ splitSlash l, '/' ∉ g := by
  induction l with
  | nil => intro g hg; simp [splitSlash] at hg; simp [hg]
  | cons c cs ih =>
    intro g hg
    by_cases h : c = '/'
    · simp only [splitSlash, if_pos h] at hg
      rcases List.mem_cons.mp hg with h1 | h1
      · simp [h1]
      · exact ih g h1
    · simp only [splitSlash, if_neg h] at hg
      cases hs : splitSlash cs with
      | nil => exact absurd hs (splitSlash_ne_nil cs)
      | cons g0 gs0 =>
        rw [hs] at hg
        rcases List.mem_cons.mp hg with h1 | h1
        · subst h1
          intro hmem
          rcases List.mem_cons.mp hmem with h2 | h2
          · exact h h2.symm
          · exact ih g0 (hs ▸ List.mem_cons_self g0 gs0) h2
        · exact ih g (hs ▸ List.mem_cons_of_mem g0 h1)

theorem charSegs_slash_cons (l : List Char) : charSegs ('/' :: l) = charSegs l := by
  simp [charSegs, splitSlash]

theorem contains_iff_mem {c : Char} {g : List Char} : g.contains c = true ↔ c ∈ g :=
  ⟨List.mem_of_elem_eq_true, List.elem_eq_true_of_mem⟩

theorem goodSeg_spec {s : String} (h : goodSeg s = true) :
    s.toList ≠ [] ∧ '/' ∉ s.toList := by
  simp only [goodSeg, Bool.and_eq_true, Bool.not_eq_true'] at h
  refine ⟨fun hnil => ?_, fun hmem => ?_⟩
  · rw [hnil] at h; simp at h
  · rw [contains_iff_mem.mpr hmem] at h; simp at h

theorem charSegs_joinSlash (segs : List String) (h : ∀ s ∈ segs, goodSeg s = true) :
    charSegs (joinSlash (segs.map String.toList)) = segs := by
  cases segs with
  | nil => rfl
  | cons s rest =>
    have hslash : ∀ g ∈ (s :: rest).map String.toList, '/' ∉ g := by
      intro g hg
      rcases List.mem_map.mp hg with ⟨x, hx, rfl⟩
      exact (goodSeg_spec (h x hx)).2
    rw [charSegs, splitSlash_joinSlash _ hslash (by simp)]
    have hkeep : ∀ g ∈ (s :: rest).map String.toList, (!g.isEmpty) = true := by
      intro g hg
      rcases List.mem_map.mp hg with ⟨x, hx, rfl⟩
      have hne := (goodSeg_spec (h x hx)).1
      cases hl : x.toList with
      | nil => exact absurd hl hne
      | cons c cs => simp [hl]
    rw [List.filter_eq_self.mpr hkeep, List.map_map]
    have hid : (fun g => String.mk g) ∘ String.toList = id := by
      funext x; exact mk_toList x
    rw [hid, List.map_id]

theorem splitSegs_joinRel (segs : List String) (h : ∀ s ∈ segs, goodSeg s = true) :
    splitSegs (joinRel segs) = segs := by
  rw [splitSegs, joinRel, toList_mk]
  exact charSegs_joinSlash segs h

theorem splitSegs_joinAbs (segs : List String) (h : ∀ s ∈ segs, goodSeg s = true) :
    splitSegs (joinAbs segs) = segs := by
  rw [splitSegs, joinAbs, toList_mk, charSegs_slash_cons]
  exact charSegs_joinSlash segs h

theorem charSegs_good (l : List Char) : ∀ s ∈ charSegs l, goodSeg s = true := by
  intro s hs
  rcases List.mem_map.mp hs with ⟨g, hg, rfl⟩
  rcases List.mem_filter.mp hg with ⟨hg1, hg2⟩
  have hslash : '/' ∉ g := splitSlash_groups_slashFree l g hg1
  have hcont : g.contains '/' = false := by
    cases hcg : g.contains '/' with
    | false => rfl
    | true => exact absurd (contains_iff_mem.mp hcg) hslash
  simp only [goodSeg, toList_mk, Bool.and_eq_true, Bool.not_eq_true']
  exact ⟨by simpa using hg2, hcont⟩

theorem splitSegs_good (p : String) : ∀ s ∈ splitSegs p, goodSeg s = true :=
  charSegs_good p.toList

/-! ## Normalization lemmas -/

theorem goodSeg_of_canonSeg {s : String} (h : canonSeg s = true) : goodSeg s = true := by
  simp only [canonSeg, Bool.and_eq_true] at h
  exact h.1.1

theorem canonSeg_spec {s : String} (h : canonSeg s = true) :
    goodSeg s = true ∧ s ≠ "." ∧ s ≠ ".." := by
  simp only [canonSeg, Bool.and_eq_true, Bool.not_eq_true', beq_eq_false_iff_ne, ne_eq] at h
  exact ⟨h.1.1, h.1.2, h.2⟩

theorem normStep_plain {acc : List String} {s : String} (h1 : s ≠ ".") (h2 : s ≠ "..") :
    normStep acc s = acc ++ [s] := by
  simp [normStep, h1, h2]

theorem foldl_normStep_canon (l : List String) (h : ∀ s ∈ l, canonSeg s = true) :
    ∀ acc, List.foldl normStep acc l = acc ++ l := by
  induction l with
  | nil => intro acc; simp
  | cons s l' ih =>
    intro acc
    rcases canonSeg_spec (h s (List.mem_cons_self s l')) with ⟨_, h1, h2⟩
    rw [List.foldl_cons, normStep_plain h1 h2,
      ih (fun x hx => h x (List.mem_cons_of_mem s hx)), List.append_assoc]
    rfl

theorem normSegs_canonical (l : List String) (h : ∀ s ∈ l, canonSeg s = true) :
    normSegs l = l := by
  rw [normSegs, foldl_normStep_canon l h []]; rfl

theorem foldl_normStep_popAll (extra : List String) :
    ∀ acc rest, List.foldl normStep (acc ++ extra) (List.replicate extra.length ".." ++ rest) =
      List.foldl normStep acc rest := by
  induction extra using List.reverseRecOn with
  | nil => intro acc rest; simp
  | append_singleton l a ih =>
    intro acc rest
    have hlen : (l ++ [a]).length = l.length + 1 := by simp
    rw [hlen, List.replicate_succ, List.cons_append, List.foldl_cons]
    have hstep : normStep (acc ++ (l ++ [a])) ".." = acc ++ l := by
      have h1 : ((".." : String) = ".") = False := by simp
      have h2 : ((".." : String) = "..") = True := by simp
      simp only [normStep, h1, h2, if_false, if_true]
      rw [← List.append_assoc, List.dropLast_concat]
    rw [hstep, ih]

theorem canon_dropLast (l : List String) (h : ∀ s ∈ l, canonSeg s = true) :
    ∀ s ∈ l.dropLast, canonSeg s = true :=
  fun s hs => h s ((List.dropLast_sublist l).subset hs)

theorem foldl_normStep_good (l : List String) :
    ∀ acc, (∀ s ∈ l, goodSeg s = true) → (∀ s ∈ acc, canonSeg s = true) →
      ∀ s ∈ List.foldl normStep acc l, canonSeg s = true := by
  induction l with
  | nil => intro acc _ hacc; simpa using hacc
  | cons s l' ih =>
    intro acc hl hacc
    rw [List.foldl_cons]
    have hl' : ∀ x ∈ l', goodSeg x = true := fun x hx => hl x (List.mem_cons_of_mem s hx)
    by_cases h1 : s = "."
    · rw [normStep, if_pos h1]; exact ih acc hl' hacc
    · by_cases h2 : s = ".."
      · rw [normStep, if_neg h1, if_pos h2]
        exact ih acc.dropLast hl' (canon_dropLast acc hacc)
      · rw [normStep_plain h1 h2]
        refine ih (acc ++ [s]) hl' ?_
        intro x hx
        rcases List.mem_append.mp hx with hx | hx
        · exact hacc x hx
        · have : x = s := by simpa using hx
          subst this
          simp only [canonSeg, Bool.and_eq_true, Bool.not_eq_true', beq_eq_false_iff_ne, ne_eq]
          exact ⟨⟨hl x (List.mem_cons_self x l'), h1⟩, h2⟩

theorem normSegs_good (l : List String) (h : ∀ s ∈ l, goodSeg s = true) :
    ∀ s ∈ normSegs l, canonSeg s = true :=
  foldl_normStep_good l [] h (by simp)

/-! ## Relative-walk lemmas -/

theorem relSegs_mem (f : List String) :
    ∀ t s, s ∈ relSegs f t → s = ".." ∨ s ∈ t := by
  induction f with
  | nil => intro t s hs; exact Or.inr hs
  | cons a as ih =>
    intro t s hs
    cases t with
    | nil =>
      simp only [relSegs] at hs
      exact Or.inl (List.eq_of_mem_replicate hs)
    | cons b bs =>
      simp only [relSegs] at hs
      by_cases hab : a = b
      · rw [if_pos hab] at hs
        rcases ih bs s hs with h | h
        · exact Or.inl h
        · exact Or.inr (List.mem_cons_of_mem b h)
      · rw [if_neg hab] at hs
        rcases List.mem_append.mp hs with h | h
        · exact Or.inl (List.eq_of_mem_replicate h)
        · exact Or.inr h

theorem relSegs_append (f : List String) : ∀ r, relSegs f (f ++ r) = r := by
  induction f with
  | nil => intro r; rfl
  | cons a as ih =>
    intro r
    show relSegs (a :: as) (a :: (as ++ r)) = r
    simp only [relSegs, if_pos rfl]
    exact ih r

theorem foldl_normStep_relSegs (f : List String) :
    ∀ t c, (∀ s ∈ t, canonSeg s = true) →
      List.foldl normStep (c ++ f) (relSegs f t) = c ++ t := by
  induction f with
  | nil =>
    intro t c ht
    simpa [relSegs] using foldl_normStep_canon t ht c
  | cons a as ih =>
    intro t c ht
    cases t with
    | nil =>
      show List.foldl normStep (c ++ (a :: as)) (List.replicate (a :: as).length "..") = c ++ []
      have := foldl_normStep_popAll (a :: as) c []
      simpa using this
    | cons b bs =>
      by_cases hab : a = b
      · subst hab
        show List.foldl normStep (c ++ (a :: as)) (relSegs (a :: as) (a :: bs)) = c ++ (a :: bs)
        simp only [relSegs, if_pos rfl]
        have hcons : c ++ (a :: as) = (c ++ [a]) ++ as := by simp
        have hcons2 : c ++ (a :: bs) = (c ++ [a]) ++ bs := by simp
        rw [hcons, hcons2]
        exact ih bs (c ++ [a]) (fun s hs => ht s (List.mem_cons_of_mem a hs))
      · show List.foldl normStep (c ++ (a :: as)) (relSegs (a :: as) (b :: bs)) = c ++ (b :: bs)
        simp only [relSegs, if_neg hab]
        rw [foldl_normStep_popAll (a :: as) c (b :: bs)]
        exact foldl_normStep_canon (b :: bs) ht c

theorem relSegs_nil_imp_eq {f t : List String} (ht : ∀ s ∈ t, canonSeg s = true)
    (h : relSegs f t = []) : f = t := by
  have := foldl_normStep_relSegs f t [] ht
  rw [h] at this
  simpa using this

theorem relSegs_good (d t : List String) (ht : ∀ s ∈ t, canonSeg s = true) :
    ∀ s ∈ relSegs d t, goodSeg s = true := by
  intro s hs
  rcases relSegs_mem d t s hs with h | h
  · subst h; decide
  · exact goodSeg_of_canonSeg (ht s h)

/-! ## Branch selection on boolean conditions -/

theorem if_bool_false {α : Sort _} {b : Bool} (h : b = false) (x y : α) :
    (if b then x else y) = y := by
  rw [h]; simp

theorem if_bool_true {α : Sort _} {b : Bool} (h : b = true) (x y : α) :
    (if b then x else y) = x := by
  rw [h]; simp

/-! ## First-character analysis -/

theorem goodSeg_head {s : String} (h : goodSeg s = true) :
    ∃ c cs, s.toList = c :: cs ∧ c ≠ '/' := by
  rcases goodSeg_spec h with ⟨hne, hsl⟩
  cases hl : s.toList with
  | nil => exact absurd hl hne
  | cons c cs =>
    refine ⟨c, cs, rfl, fun hc => hsl ?_⟩
    rw [hl, hc]
    exact List.mem_cons_self '/' cs

theorem joinRel_cons_toList (s : String) (rest : List String) :
    ∃ X, (joinRel (s :: rest)).toList = s.toList ++ X := by
  rw [joinRel, toList_mk]
  show ∃ X, joinSlash (s.toList :: rest.map String.toList) = s.toList ++ X
  cases rest.map String.toList with
  | nil => exact ⟨[], by simp [joinSlash]⟩
  | cons g gs => exact ⟨'/' :: joinSlash (g :: gs), rfl⟩

theorem strStarts_joinAbs (segs : List String) : strStarts (joinAbs segs) '/' = true := by
  rw [strStarts, joinAbs, toList_mk]
  rfl

theorem strStarts_joinRel_slash (s : String) (rest : List String) (h : goodSeg s = true) :
    strStarts (joinRel (s :: rest)) '/' = false := by
  obtain ⟨c, cs, hl, hc⟩ := goodSeg_head h
  obtain ⟨X, hX⟩ := joinRel_cons_toList s rest
  rw [strStarts, hX, hl, List.cons_append, List.head?_cons]
  simpa using hc

theorem splitSegs_empty : splitSegs "" = [] := rfl

theorem charSegs_dotSlash_cons (l : List Char) :
    charSegs ('.' :: '/' :: l) = "." :: charSegs l := by
  have h1 : splitSlash ('.' :: '/' :: l) = ['.'] :: splitSlash l := by
    rw [splitSlash, if_neg (by decide : ¬('.' : Char) = '/')]
    rw [splitSlash, if_pos rfl]
  rw [charSegs, h1]
  rw [List.filter_cons_of_pos (by decide)]
  rfl

/-! ## The central path round-trip lemmas -/

theorem pathResolve_joinAbs_joinRel (d rs : List String)
    (hd : ∀ s ∈ d, canonSeg s = true) (hrs : ∀ s ∈ rs, goodSeg s = true) :
    pathResolve (joinAbs d) (joinRel rs) = joinAbs (List.foldl normStep d rs) := by
  have hdg : ∀ s ∈ d, goodSeg s = true := fun s hs => goodSeg_of_canonSeg (hd s hs)
  cases rs with
  | nil =>
    have h0 : joinRel ([] : List String) = "" := rfl
    rw [h0, pathResolve, if_bool_false (by decide : strStarts "" '/' = false)]
    rw [splitSegs_joinAbs d hdg, splitSegs_empty, List.append_nil, normSegs_canonical d hd]
    rfl
  | cons s rest =>
    rw [pathResolve,
      if_bool_false (strStarts_joinRel_slash s rest (hrs s (List.mem_cons_self s rest)))]
    rw [splitSegs_joinAbs d hdg, splitSegs_joinRel _ hrs, normSegs, List.foldl_append,
      foldl_normStep_canon d hd [], List.nil_append]

theorem pathResolve_joinAbs_addDot (d rs : List String)
    (hd : ∀ s ∈ d, canonSeg s = true) (hrs : ∀ s ∈ rs, goodSeg s = true) :
    pathResolve (joinAbs d) (addDotSlash (joinRel rs)) =
      joinAbs (List.foldl normStep d rs) := by
  have hdg : ∀ s ∈ d, goodSeg s = true := fun s hs => goodSeg_of_canonSeg (hd s hs)
  cases rs with
  | nil =>
    have h0 : addDotSlash (joinRel ([] : List String)) = joinRel ([] : List String) := rfl
    rw [h0]
    exact pathResolve_joinAbs_joinRel d [] hd hrs
  | cons s rest =>
    obtain ⟨c, cs, hl, hcsl⟩ := goodSeg_head (hrs s (List.mem_cons_self s rest))
    obtain ⟨X, hX⟩ := joinRel_cons_toList s rest
    have hJl : (joinRel (s :: rest)).toList = c :: (cs ++ X) := by
      rw [hX, hl]; rfl
    by_cases hc : c = '.'
    · have hads : addDotSlash (joinRel (s :: rest)) = joinRel (s :: rest) := by
        rw [addDotSlash, hJl]
        exact if_pos hc
      rw [hads]
      exact pathResolve_joinAbs_joinRel d (s :: rest) hd hrs
    · have hads : addDotSlash (joinRel (s :: rest)) = "./" ++ joinRel (s :: rest) := by
        rw [addDotSlash, hJl]
        exact if_neg hc
      rw [hads]
      have htl : ("./" ++ joinRel (s :: rest)).toList =
          '.' :: '/' :: (joinRel (s :: rest)).toList := by
        rw [toList_append]; rfl
      have hstart : strStarts ("./" ++ joinRel (s :: rest)) '/' = false := by
        rw [strStarts, htl, List.head?_cons]; rfl
      rw [pathResolve, if_bool_false hstart]
      have hsegs : splitSegs ("./" ++ joinRel (s :: rest)) = "." :: (s :: rest) := by
        rw [splitSegs, htl, charSegs_dotSlash_cons]
        have : charSegs (joinRel (s :: rest)).toList = splitSegs (joinRel (s :: rest)) := rfl
        rw [this, splitSegs_joinRel _ hrs]
      rw [splitSegs_joinAbs d hdg, hsegs, normSegs, List.foldl_append,
        foldl_normStep_canon d hd [], List.nil_append, List.foldl_cons, normStep, if_pos rfl]

theorem isCanonAbs_spec {p : String} (h : isCanonAbs p = true) :
    (∀ s ∈ splitSegs p, canonSeg s = true) ∧ p = joinAbs (splitSegs p) := by
  simp only [isCanonAbs, Bool.and_eq_true, List.all_eq_true, beq_iff_eq] at h
  exact h

theorem pathRelative_abs (cwd : String) (d t : List String)
    (hd : ∀ s ∈ d, canonSeg s = true) (ht : ∀ s ∈ t, canonSeg s = true) :
    pathRelative cwd (joinAbs d) (joinAbs t) = joinRel (relSegs d t) := by
  have hdg : ∀ s ∈ d, goodSeg s = true := fun s hs => goodSeg_of_canonSeg (hd s hs)
  have htg : ∀ s ∈ t, goodSeg s = true := fun s hs => goodSeg_of_canonSeg (ht s hs)
  rw [pathRelative, absSegsOf, absSegsOf, if_bool_true (strStarts_joinAbs d),
    if_bool_true (strStarts_joinAbs t), splitSegs_joinAbs d hdg, splitSegs_joinAbs t htg,
    normSegs_canonical d hd, normSegs_canonical t ht]

theorem foldl_normStep_relSegs_self (d t : List String)
    (ht : ∀ s ∈ t, canonSeg s = true) : List.foldl normStep d (relSegs d t) = t := by
  have := foldl_normStep_relSegs d t [] ht
  simpa using this

theorem rewrite_points_at (cwd : String) (d t : List String)
    (hd : ∀ s ∈ d, canonSeg s = true) (ht : ∀ s ∈ t, canonSeg s = true) :
    pathResolve (joinAbs d) (addDotSlash (pathRelative cwd (joinAbs d) (joinAbs t))) =
      joinAbs t := by
  rw [pathRelative_abs cwd d t hd ht,
    pathResolve_joinAbs_addDot d (relSegs d t) hd (relSegs_good d t ht),
    foldl_normStep_relSegs_self d t ht]

theorem rewrite_points_at_bare (cwd : String) (d t : List String)
    (hd : ∀ s ∈ d, canonSeg s = true) (ht : ∀ s ∈ t, canonSeg s = true) :
    pathResolve (joinAbs d) (pathRelative cwd (joinAbs d) (joinAbs t)) = joinAbs t := by
  rw [pathRelative_abs cwd d t hd ht,
    pathResolve_joinAbs_joinRel d (relSegs d t) hd (relSegs_good d t ht),
    foldl_normStep_relSegs_self d t ht]

theorem addDotSlash_starts_dot (s : String) (rest : List String) (h : goodSeg s = true) :
    strStarts (addDotSlash (joinRel (s :: rest))) '.' = true := by
  obtain ⟨c, cs, hl, _⟩ := goodSeg_head h
  obtain ⟨X, hX⟩ := joinRel_cons_toList s rest
  have hJl : (joinRel (s :: rest)).toList = c :: (cs ++ X) := by
    rw [hX, hl]; rfl
  by_cases hc : c = '.'
  · have hads : addDotSlash (joinRel (s :: rest)) = joinRel (s :: rest) := by
      rw [addDotSlash, hJl]
      exact if_pos hc
    rw [hads, strStarts, hJl, List.head?_cons, hc]
    rfl
  · have hads : addDotSlash (joinRel (s :: rest)) = "./" ++ joinRel (s :: rest) := by
      rw [addDotSlash, hJl]
      exact if_neg hc
    rw [hads, strStarts, toList_append]
    rfl

/-! ## Appending a file extension to the last segment -/

/-- Appends a suffix to the last segment of a segment list (an empty list
gains the suffix as its only segment).  This is how string-concatenating an
extension onto an absolute path acts on its segments. -/
def appendExt : List String → String → List String
  | [], e => [e]
  | s :: ss, e =>
    match ss with
    | [] => [s ++ e]
    | _ :: _ => s :: appendExt ss e

theorem appendExt_ne_nil (ms : List String) (e : String) : appendExt ms e ≠ [] := by
  cases ms with
  | nil => simp [appendExt]
  | cons s ss => cases ss <;> simp [appendExt]

theorem joinSlash_cons_of_ne_nil (g : List Char) (gs : List (List Char)) (h : gs ≠ []) :
    joinSlash (g :: gs) = g ++ '/' :: joinSlash gs := by
  cases gs with
  | nil => exact absurd rfl h
  | cons a as => rfl

theorem joinSlash_appendExt (ms : List String) (e : String) :
    joinSlash ((appendExt ms e).map String.toList) =
      joinSlash (ms.map String.toList) ++ e.toList := by
  induction ms with
  | nil => simp [appendExt, joinSlash]
  | cons s ss ih =>
    cases ss with
    | nil =>
      show joinSlash [(s ++ e).toList] = joinSlash [s.toList] ++ e.toList
      simp [joinSlash, toList_append]
    | cons s2 t =>
      have h1 : appendExt (s :: s2 :: t) e = s :: appendExt (s2 :: t) e := rfl
      have hne : (appendExt (s2 :: t) e).map String.toList ≠ [] := by
        have := appendExt_ne_nil (s2 :: t) e
        simpa using this
      rw [h1, List.map_cons, joinSlash_cons_of_ne_nil _ _ hne, ih]
      have h4 : joinSlash (List.map String.toList (s :: s2 :: t)) =
          s.toList ++ '/' :: joinSlash (List.map String.toList (s2 :: t)) := rfl
      rw [h4]
      simp

theorem joinAbs_appendExt (ms : List String) (e : String) :
    joinAbs (appendExt ms e) = joinAbs ms ++ e := by
  apply toList_injective
  rw [toList_append, joinAbs, joinAbs, toList_mk, toList_mk]
  rw [joinSlash_appendExt]
  rfl

theorem appendExt_canon (ms : List String) (e : String)
    (hms : ∀ s ∈ ms, canonSeg s = true)
    (he2 : '/' ∉ e.toList) (he3 : 2 < e.toList.length) :
    ∀ s ∈ appendExt ms e, canonSeg s = true := by
  have hcat : ∀ s : String, '/' ∉ s.toList → canonSeg (s ++ e) = true := by
    intro s hs
    have htl : (s ++ e).toList = s.toList ++ e.toList := toList_append s e
    have hlen : 2 < (s ++ e).toList.length := by
      rw [htl, List.length_append]; omega
    have hgood : goodSeg (s ++ e) = true := by
      simp only [goodSeg, Bool.and_eq_true, Bool.not_eq_true']
      constructor
      · cases hl : (s ++ e).toList with
        | nil => rw [hl] at hlen; simp at hlen
        | cons c cs => rfl
      · cases hcg : (s ++ e).toList.contains '/' with
        | false => rfl
        | true =>
          exfalso
          have := contains_iff_mem.mp hcg
          rw [htl] at this
          rcases List.mem_append.mp this with h | h
          · exact hs h
          · exact he2 h
    simp only [canonSeg, Bool.and_eq_true, Bool.not_eq_true', beq_eq_false_iff_ne, ne_eq]
    refine ⟨⟨hgood, fun hdot => ?_⟩, fun hdd => ?_⟩
    · rw [hdot] at hlen; simp at hlen
    · rw [hdd] at hlen; simp at hlen
  clear he2 he3
  induction ms with
  | nil =>
    intro s hs
    have hse : s = e := by simpa [appendExt] using hs
    subst hse
    have hemp : ("" : String) ++ s = s := toList_injective (by rw [toList_append]; rfl)
    rw [← hemp]
    exact hcat "" (by simp)
  | cons s0 ss ih =>
    intro s hs
    cases ss with
    | nil =>
      have hse : s = s0 ++ e := by simpa [appendExt] using hs
      subst hse
      exact hcat s0 (goodSeg_spec (goodSeg_of_canonSeg
        (hms s0 (List.mem_cons_self s0 [])))).2
    | cons s2 t =>
      have h1 : appendExt (s0 :: s2 :: t) e = s0 :: appendExt (s2 :: t) e := rfl
      rw [h1] at hs
      rcases List.mem_cons.mp hs with h | h
      · subst h; exact hms s (List.mem_cons_self s (s2 :: t))
      · exact ih (fun x hx => hms x (List.mem_cons_of_mem s0 hx)) s h

/-! ## Derived canonicity facts -/

theorem strStarts_dot_not_slash {m : String} (h : strStarts m '.' = true) :
    strStarts m '/' = false := by
  rw [strStarts] at h ⊢
  cases hl : m.toList with
  | nil => rw [hl] at h; simp at h
  | cons c cs =>
    rw [hl] at h
    simp only [List.head?_cons, Option.some.injEq] at h ⊢
    have : c = '.' := by simpa using h
    subst this
    decide

theorem pathResolve_rel_eq (base m : String) (h : strStarts m '.' = true) :
    pathResolve base m = joinAbs (normSegs (splitSegs base ++ splitSegs m)) := by
  rw [pathResolve, if_bool_false (strStarts_dot_not_slash h)]

theorem pathDirname_splitSegs (p : String) :
    pathDirname p = joinAbs (splitSegs p).dropLast := rfl

theorem canonAbs_dirname {p : String} (h : isCanonAbs p = true) :
    (∀ s ∈ splitSegs (pathDirname p), canonSeg s = true) ∧
      pathDirname p = joinAbs (splitSegs (pathDirname p)) := by
  rcases isCanonAbs_spec h with ⟨hc, _⟩
  have hd := canon_dropLast _ hc
  have hg : ∀ s ∈ (splitSegs p).dropLast, goodSeg s = true :=
    fun s hs => goodSeg_of_canonSeg (hd s hs)
  constructor
  · rw [pathDirname_splitSegs, splitSegs_joinAbs _ hg]
    exact hd
  · rw [pathDirname_splitSegs, splitSegs_joinAbs _ hg]

theorem modulePath_segs (fileName mod : String) (hf : isCanonAbs fileName = true)
    (hm : strStarts mod '.' = true) :
    ∃ ms : List String, (∀ s ∈ ms, canonSeg s = true) ∧
      pathResolve (pathDirname fileName) mod = joinAbs ms := by
  refine ⟨normSegs (splitSegs (pathDirname fileName) ++ splitSegs mod), ?_, ?_⟩
  · apply normSegs_good
    intro s hs
    rcases List.mem_append.mp hs with h | h
    · exact goodSeg_of_canonSeg ((canonAbs_dirname hf).1 s h)
    · exact splitSegs_good mod s h
  · exact pathResolve_rel_eq _ _ hm

theorem pathJoin_index (ms : List String) (hms : ∀ s ∈ ms, canonSeg s = true) :
    pathJoin (joinAbs ms) "index.ts" = joinAbs (ms ++ ["index.ts"]) := by
  have hg : ∀ s ∈ ms, goodSeg s = true := fun s hs => goodSeg_of_canonSeg (hms s hs)
  rw [pathJoin, if_bool_true (strStarts_joinAbs ms), splitSegs_joinAbs ms hg,
    (by decide : splitSegs "index.ts" = ["index.ts"])]
  apply congrArg
  apply normSegs_canonical
  intro s hs
  rcases List.mem_append.mp hs with h | h
  · exact hms s h
  · have : s = "index.ts" := by simpa using h
    subst this; decide

theorem canon_append_index (ms : List String) (hms : ∀ s ∈ ms, canonSeg s = true) :
    ∀ s ∈ ms ++ ["index.ts"], canonSeg s = true := by
  intro s hs
  rcases List.mem_append.mp hs with h | h
  · exact hms s h
  · have : s = "index.ts" := by simpa using h
    subst this; decide

theorem append_ts_ne_dts (p : String) : p ++ ".ts" ≠ p ++ ".d.ts" := by
  intro h
  have := congrArg (fun s => s.toList.length) h
  simp only [toList_append, List.length_append] at this
  have h3 : (".ts" : String).toList.length = 3 := by decide
  have h5 : (".d.ts" : String).toList.length = 5 := by decide
  rw [h3, h5] at this
  omega

/-! ## Resolver branch evaluations -/

theorem resolveRel_dir (fsys : FS) (packageDir cwd fileName mod : String)
    (hm : strStarts mod '.' = true)
    (hdir : (fsys.existsSync (pathResolve (pathDirname fileName) mod) &&
      fsys.statIsDir (pathResolve (pathDirname fileName) mod)) = true) :
    resolveModuleSpecifier fsys packageDir cwd fileName mod =
      Except.ok (addDotSlash (pathRelative cwd (pathDirname fileName)
        (pathJoin (pathResolve (pathDirname fileName) mod) "index.ts"))) := by
  simp only [resolveModuleSpecifier]
  rw [if_bool_true hm, if_bool_true hdir]
  rfl

theorem resolveRel_ts (fsys : FS) (packageDir cwd fileName mod : String)
    (hm : strStarts mod '.' = true)
    (hdir : (fsys.existsSync (pathResolve (pathDirname fileName) mod) &&
      fsys.statIsDir (pathResolve (pathDirname fileName) mod)) = false)
    (hts : fsys.existsSync (pathResolve (pathDirname fileName) mod ++ ".ts") = true) :
    resolveModuleSpecifier fsys packageDir cwd fileName mod =
      Except.ok (addDotSlash (pathRelative cwd (pathDirname fileName)
        (pathResolve (pathDirname fileName) mod ++ ".ts"))) := by
  simp only [resolveModuleSpecifier]
  rw [if_bool_true hm, if_bool_false hdir, if_bool_true hts]
  rfl

theorem resolveRel_dts (fsys : FS) (packageDir cwd fileName mod : String)
    (hm : strStarts mod '.' = true)
    (hdir : (fsys.existsSync (pathResolve (pathDirname fileName) mod) &&
      fsys.statIsDir (pathResolve (pathDirname fileName) mod)) = false)
    (hts : fsys.existsSync (pathResolve (pathDirname fileName) mod ++ ".ts") = false)
    (hdts : fsys.existsSync (pathResolve (pathDirname fileName) mod ++ ".d.ts") = true) :
    resolveModuleSpecifier fsys packageDir cwd fileName mod =
      Except.ok (addDotSlash (pathRelative cwd (pathDirname fileName)
        (pathResolve (pathDirname fileName) mod ++ ".d.ts"))) := by
  simp only [resolveModuleSpecifier]
  rw [if_bool_true hm, if_bool_false hdir, if_bool_false hts, if_bool_true hdts]
  rfl

theorem resolveRel_missing (fsys : FS) (packageDir cwd fileName mod : String)
    (hm : strStarts mod '.' = true)
    (hex : fsys.existsSync (pathResolve (pathDirname fileName) mod) = false)
    (hts : fsys.existsSync (pathResolve (pathDirname fileName) mod ++ ".ts") = false)
    (hdts : fsys.existsSync (pathResolve (pathDirname fileName) mod ++ ".d.ts") = false) :
    resolveModuleSpecifier fsys packageDir cwd fileName mod =
      Except.error ("Unable to resolve modulePath " ++
        pathResolve (pathDirname fileName) mod) := by
  have hdir : (fsys.existsSync (pathResolve (pathDirname fileName) mod) &&
      fsys.statIsDir (pathResolve (pathDirname fileName) mod)) = false := by
    rw [hex]; rfl
  simp only [resolveModuleSpecifier]
  rw [if_bool_true hm, if_bool_false hdir, if_bool_false hts, if_bool_false hdts,
    if_bool_true (by rw [hex]; rfl)]
  rfl

theorem resolveRel_exact (fsys : FS) (packageDir cwd fileName mod : String)
    (hm : strStarts mod '.' = true)
    (hex : fsys.existsSync (pathResolve (pathDirname fileName) mod) = true)
    (hnd : fsys.statIsDir (pathResolve (pathDirname fileName) mod) = false)
    (hts : fsys.existsSync (pathResolve (pathDirname fileName) mod ++ ".ts") = false)
    (hdts : fsys.existsSync (pathResolve (pathDirname fileName) mod ++ ".d.ts") = false) :
    resolveModuleSpecifier fsys packageDir cwd fileName mod =
      Except.ok (addDotSlash (pathRelative cwd (pathDirname fileName) mod)) := by
  have hdir : (fsys.existsSync (pathResolve (pathDirname fileName) mod) &&
      fsys.statIsDir (pathResolve (pathDirname fileName) mod)) = false := by
    rw [hex, hnd]; rfl
  simp only [resolveModuleSpecifier]
  rw [if_bool_true hm, if_bool_false hdir, if_bool_false hts, if_bool_false hdts,
    if_bool_false (by rw [hex]; rfl)]
  rfl

theorem resolveBare_eval (fsys : FS) (packageDir cwd fileName mod v : String)
    (hm : strStarts mod '.' = false)
    (hl : List.lookup mod moduleMap = some v) :
    resolveModuleSpecifier fsys packageDir cwd fileName mod =
      (if strStarts v '.' then
        Except.ok (pathRelative cwd (stripFirst (pathDirname fileName) "/src")
          (pathResolve packageDir v))
      else Except.ok v) := by
  simp only [resolveModuleSpecifier]
  rw [if_bool_false hm, hl]

theorem resolveBare_missing (fsys : FS) (packageDir cwd fileName mod : String)
    (hm : strStarts mod '.' = false)
    (hl : List.lookup mod moduleMap = none) :
    resolveModuleSpecifier fsys packageDir cwd fileName mod =
      Except.error ("Unknown module " ++ mod ++ " in " ++ fileName) := by
  simp only [resolveModuleSpecifier]
  rw [if_bool_false hm, hl]

/-! ## Substring lemmas for error messages -/

theorem chPre_append (m r : List Char) : chPre m (m ++ r) = true := by
  induction m with
  | nil => rfl
  | cons a as ih => simp [chPre, ih]

theorem containsSub_self_append (m r : List Char) : containsSub (m ++ r) m = true := by
  cases m with
  | nil =>
    cases r with
    | nil => rfl
    | cons c cs =>
      show containsSub (c :: cs) [] = true
      simp [containsSub, chPre]
  | cons c cs =>
    have h := chPre_append (c :: cs) r
    rw [List.cons_append] at h
    rw [List.cons_append]
    simp only [containsSub, Bool.or_eq_true]
    exact Or.inl h

theorem containsSub_append_left (l m r : List Char) :
    containsSub (l ++ (m ++ r)) m = true := by
  induction l with
  | nil => exact containsSub_self_append m r
  | cons c cs ih =>
    rw [List.cons_append]
    simp only [containsSub, Bool.or_eq_true]
    exact Or.inr ih

theorem list_contains_iff_mem {α : Type _} [BEq α] [LawfulBEq α] {a : α} {l : List α} :
    l.contains a = true ↔ a ∈ l :=
  ⟨List.mem_of_elem_eq_true, List.elem_eq_true_of_mem⟩

theorem canonAbs_dirname_ex {p : String} (h : isCanonAbs p = true) :
    ∃ D, (∀ s ∈ D, canonSeg s = true) ∧ pathDirname p = joinAbs D :=
  ⟨splitSegs (pathDirname p), (canonAbs_dirname h).1, (canonAbs_dirname h).2⟩

theorem mapExcept_error {α ε β : Type _} (g : α → Except ε β) :
    ∀ (l : List α) (f : α), f ∈ l → (∃ e, g f = Except.error e) →
      ∃ e2, mapExcept g l = Except.error e2 := by
  intro l
  induction l with
  | nil => intro f hf; simp at hf
  | cons x xs ih =>
    rintro f hf ⟨e, he⟩
    rcases List.mem_cons.mp hf with h | h
    · subst h
      exact ⟨e, by rw [mapExcept, he]⟩
    · cases hx : g x with
      | error ex => exact ⟨ex, by rw [mapExcept, hx]⟩
      | ok y =>
        rcases ih f h ⟨e, he⟩ with ⟨e2, he2⟩
        exact ⟨e2, by rw [mapExcept, hx, he2]⟩

/-! ## Claim theorems -/

/-- C1: for every relative specifier (one beginning with a dot) resolved
against the directory of the referencing file, the resolver applies the
ordered fallback search: if the literal resolved path exists and is a
directory, the emitted specifier points back at `<path>/index.ts`
(directory takes priority over a same-named source file); otherwise if
`<path>.ts` exists the emitted specifier points at `<path>.ts` and never at
`<path>.d.ts`, even when both exist; otherwise if `<path>.d.ts` exists the
emitted specifier points at `<path>.d.ts`. -/
theorem c1_relative_fallback (fsys : FS) (packageDir cwd fileName mod : String)
    (hf : isCanonAbs fileName = true) (hm : strStarts mod '.' = true) :
    ((fsys.existsSync (pathResolve (pathDirname fileName) mod) &&
        fsys.statIsDir (pathResolve (pathDirname fileName) mod)) = true →
      ∃ out, resolveModuleSpecifier fsys packageDir cwd fileName mod = Except.ok out ∧
        pathResolve (pathDirname fileName) out =
          pathJoin (pathResolve (pathDirname fileName) mod) "index.ts") ∧
    ((fsys.existsSync (pathResolve (pathDirname fileName) mod) &&
        fsys.statIsDir (pathResolve (pathDirname fileName) mod)) = false →
      fsys.existsSync (pathResolve (pathDirname fileName) mod ++ ".ts") = true →
      ∃ out, resolveModuleSpecifier fsys packageDir cwd fileName mod = Except.ok out ∧
        pathResolve (pathDirname fileName) out =
          pathResolve (pathDirname fileName) mod ++ ".ts" ∧
        pathResolve (pathDirname fileName) out ≠
          pathResolve (pathDirname fileName) mod ++ ".d.ts") ∧
    ((fsys.existsSync (pathResolve (pathDirname fileName) mod) &&
        fsys.statIsDir (pathResolve (pathDirname fileName) mod)) = false →
      fsys.existsSync (pathResolve (pathDirname fileName) mod ++ ".ts") = false →
      fsys.existsSync (pathResolve (pathDirname fileName) mod ++ ".d.ts") = true →
      ∃ out, resolveModuleSpecifier fsys packageDir cwd fileName mod = Except.ok out ∧
        pathResolve (pathDirname fileName) out =
          pathResolve (pathDirname fileName) mod ++ ".d.ts") := by
  obtain ⟨D, hDc, hDj⟩ := canonAbs_dirname_ex hf
  obtain ⟨ms, hmsc, hmp⟩ := modulePath_segs fileName mod hf hm
  refine ⟨?_, ?_, ?_⟩
  · intro hdir
    rw [resolveRel_dir fsys packageDir cwd fileName mod hm hdir]
    refine ⟨_, rfl, ?_⟩
    rw [hmp, pathJoin_index ms hmsc, hDj]
    exact rewrite_points_at cwd D _ hDc (canon_append_index ms hmsc)
  · intro hdir hts
    rw [resolveRel_ts fsys packageDir cwd fileName mod hm hdir hts]
    have hcanonTs : ∀ s ∈ appendExt ms ".ts", canonSeg s = true :=
      appendExt_canon ms ".ts" hmsc (by decide) (by decide)
    have hpt : pathResolve (pathDirname fileName)
        (addDotSlash (pathRelative cwd (pathDirname fileName)
          (pathResolve (pathDirname fileName) mod ++ ".ts"))) =
        pathResolve (pathDirname fileName) mod ++ ".ts" := by
      rw [hmp, ← joinAbs_appendExt ms ".ts", hDj]
      exact rewrite_points_at cwd D _ hDc hcanonTs
    exact ⟨_, rfl, hpt, by rw [hpt]; exact append_ts_ne_dts _⟩
  · intro hdir hts hdts
    rw [resolveRel_dts fsys packageDir cwd fileName mod hm hdir hts hdts]
    refine ⟨_, rfl, ?_⟩
    rw [hmp, ← joinAbs_appendExt ms ".d.ts", hDj]
    exact rewrite_points_at cwd D _ hDc (appendExt_canon ms ".d.ts" hmsc (by decide) (by decide))

/-- C1 witness: in a filesystem where both `x.ts` and `x.d.ts` exist next
to `b.ts`, the specifier `./x` resolves to a specifier pointing at the
`.ts` sibling and not at the `.d.ts` one. -/
theorem c1_relative_fallback_witness :
    ∃ out, resolveModuleSpecifier (FS.mk ["/p/a/x.ts", "/p/a/x.d.ts"] ["/p", "/p/a"])
        "/p" "/w" "/p/a/b.ts" "./x" = Except.ok out ∧
      pathResolve (pathDirname "/p/a/b.ts") out =
        pathResolve (pathDirname "/p/a/b.ts") "./x" ++ ".ts" ∧
      pathResolve (pathDirname "/p/a/b.ts") out ≠
        pathResolve (pathDirname "/p/a/b.ts") "./x" ++ ".d.ts" :=
  (c1_relative_fallback (FS.mk ["/p/a/x.ts", "/p/a/x.d.ts"] ["/p", "/p/a"])
    "/p" "/w" "/p/a/b.ts" "./x" (by decide) (by decide)).2.1 (by decide) (by decide)

/-- C4 counterexample: when no candidate exists for a relative specifier,
the thrown message is `Unable to resolve modulePath <resolved path>`: it
contains neither the offending specifier text nor the referencing file's
path, contradicting the claim that the error names both. -/
theorem c4_counterexample :
    resolveModuleSpecifier (FS.mk [] ["/p/a"]) "/p" "/w" "/p/a/b.ts" "./missing" =
      Except.error "Unable to resolve modulePath /p/a/missing" ∧
    containsStr "Unable to resolve modulePath /p/a/missing" "./missing" = false ∧
    containsStr "Unable to resolve modulePath /p/a/missing" "/p/a/b.ts" = false := by
  exact ⟨by decide, by decide, by decide⟩

/-- C4 (amended): for a relative specifier with no directory candidate, no
`.ts` sibling, no `.d.ts` sibling, and no exact file, resolution fails with
an error whose message names the resolved module path (the specifier
resolved against the referencing directory) — not the raw specifier text
and not the referencing file. -/
theorem c4_relative_unresolved_fails (fsys : FS) (packageDir cwd fileName mod : String)
    (hm : strStarts mod '.' = true)
    (hex : fsys.existsSync (pathResolve (pathDirname fileName) mod) = false)
    (hts : fsys.existsSync (pathResolve (pathDirname fileName) mod ++ ".ts") = false)
    (hdts : fsys.existsSync (pathResolve (pathDirname fileName) mod ++ ".d.ts") = false) :
    ∃ msg, resolveModuleSpecifier fsys packageDir cwd fileName mod = Except.error msg ∧
      containsStr msg (pathResolve (pathDirname fileName) mod) = true := by
  refine ⟨_, resolveRel_missing fsys packageDir cwd fileName mod hm hex hts hdts, ?_⟩
  rw [containsStr]
  have h := containsSub_append_left "Unable to resolve modulePath ".toList
    (pathResolve (pathDirname fileName) mod).toList []
  simp only [List.append_nil] at h
  simp only [toList_append]
  exact h

/-- C4 witness: a concrete run of the amended failure theorem. -/
theorem c4_relative_unresolved_fails_witness :
    ∃ msg, resolveModuleSpecifier (FS.mk [] ["/p/a"]) "/p" "/w" "/p/a/b.ts" "./missing" =
        Except.error msg ∧
      containsStr msg (pathResolve (pathDirname "/p/a/b.ts") "./missing") = true :=
  c4_relative_unresolved_fails (FS.mk [] ["/p/a"]) "/p" "/w" "/p/a/b.ts" "./missing"
    (by decide) (by decide) (by decide) (by decide)

/-- C5: a bare specifier with no entry in the mapping table makes
resolution fail, and the error message contains both the unknown specifier
and the referencing file's path. -/
theorem c5_bare_unknown_fails (fsys : FS) (packageDir cwd fileName mod : String)
    (hm : strStarts mod '.' = false)
    (hl : List.lookup mod moduleMap = none) :
    ∃ msg, resolveModuleSpecifier fsys packageDir cwd fileName mod = Except.error msg ∧
      containsStr msg mod = true ∧ containsStr msg fileName = true := by
  refine ⟨_, resolveBare_missing fsys packageDir cwd fileName mod hm hl, ?_, ?_⟩
  · rw [containsStr]
    have h := containsSub_append_left "Unknown module ".toList mod.toList
      (" in ".toList ++ fileName.toList)
    simp only [List.append_assoc] at h
    simp only [toList_append, List.append_assoc]
    exact h
  · rw [containsStr]
    have h := containsSub_append_left
      ("Unknown module ".toList ++ (mod.toList ++ " in ".toList)) fileName.toList []
    simp only [List.append_nil, List.append_assoc] at h
    simp only [toList_append, List.append_assoc]
    exact h

/-- C5 witness: the unmapped bare specifier `left-pad` fails with a message
naming it and the referencing file. -/
theorem c5_bare_unknown_fails_witness :
    ∃ msg, resolveModuleSpecifier (FS.mk [] []) "/p" "/w" "/p/core/src/a.ts" "left-pad" =
        Except.error msg ∧
      containsStr msg "left-pad" = true ∧ containsStr msg "/p/core/src/a.ts" = true :=
  c5_bare_unknown_fails (FS.mk [] []) "/p" "/w" "/p/core/src/a.ts" "left-pad"
    (by decide) (by decide)

/-- C6: a bare specifier mapped to a non-relative value (an external URL)
is emitted verbatim. -/
theorem c6_bare_external_verbatim (fsys : FS) (packageDir cwd fileName mod v : String)
    (hm : strStarts mod '.' = false)
    (hl : List.lookup mod moduleMap = some v)
    (hv : strStarts v '.' = false) :
    resolveModuleSpecifier fsys packageDir cwd fileName mod = Except.ok v := by
  rw [resolveBare_eval fsys packageDir cwd fileName mod v hm hl, if_bool_false hv]

/-- C6 witness: `graphql` maps to its skypack URL and is emitted verbatim. -/
theorem c6_bare_external_verbatim_witness :
    resolveModuleSpecifier (FS.mk [] []) "/p" "/w" "/p/core/src/a.ts" "graphql" =
      Except.ok "https://cdn.skypack.dev/graphql?dts" :=
  c6_bare_external_verbatim (FS.mk [] []) "/p" "/w" "/p/core/src/a.ts" "graphql"
    "https://cdn.skypack.dev/graphql?dts" (by decide) (by decide) (by decide)

/-- C2 counterexample: a file inside the `core` package importing the bare
specifier `@pothos/core` (mapped to the relative value `./core/index.ts`)
is rewritten to `index.ts`, which does not begin with a relative-path
marker — the mapped branch never prepends one. -/
theorem c2_counterexample :
    resolveModuleSpecifier (FS.mk [] ["/p/core/src"]) "/p" "/w" "/p/core/src/a.ts"
        "@pothos/core" = Except.ok "index.ts" ∧
    strStarts "index.ts" '.' = false := by
  exact ⟨by decide, by decide⟩

/-- C2 (amended): for a bare specifier mapped to a relative value, the
emitted specifier is the mapped path resolved against the source root and
re-expressed relative to the referencing file's output location (the
referencing directory with its first `/src` substring removed); resolved
against that output location it denotes exactly the mapped target.  No
relative-path marker is prepended in this branch, so the result begins
with one only when the relative walk does. -/
theorem c2_bare_mapped_relative (fsys : FS) (packageDir cwd fileName mod v : String)
    (hm : strStarts mod '.' = false)
    (hl : List.lookup mod moduleMap = some v)
    (hv : strStarts v '.' = true)
    (hsd : isCanonAbs (stripFirst (pathDirname fileName) "/src") = true)
    (hpk : isCanonAbs packageDir = true) :
    ∃ out, resolveModuleSpecifier fsys packageDir cwd fileName mod = Except.ok out ∧
      pathResolve (stripFirst (pathDirname fileName) "/src") out =
        pathResolve packageDir v := by
  rw [resolveBare_eval fsys packageDir cwd fileName mod v hm hl, if_bool_true hv]
  refine ⟨_, rfl, ?_⟩
  obtain ⟨hsc, hsj⟩ := isCanonAbs_spec hsd
  obtain ⟨hpc, _⟩ := isCanonAbs_spec hpk
  have hveq : pathResolve packageDir v =
      joinAbs (normSegs (splitSegs packageDir ++ splitSegs v)) :=
    pathResolve_rel_eq packageDir v hv
  have htc : ∀ s ∈ normSegs (splitSegs packageDir ++ splitSegs v), canonSeg s = true := by
    apply normSegs_good
    intro s hs
    rcases List.mem_append.mp hs with h | h
    · exact goodSeg_of_canonSeg (hpc s h)
    · exact splitSegs_good v s h
  rw [hveq, hsj]
  exact rewrite_points_at_bare cwd _ _ hsc htc

/-- C2 witness: `@pothos/plugin-directives` imported from
`/p/core/src/a.ts` is re-expressed relative to the output location
`/p/core` and points at `/p/plugin-directives/index.ts`. -/
theorem c2_bare_mapped_relative_witness :
    ∃ out, resolveModuleSpecifier (FS.mk [] []) "/p" "/w" "/p/core/src/a.ts"
        "@pothos/plugin-directives" = Except.ok out ∧
      pathResolve (stripFirst (pathDirname "/p/core/src/a.ts") "/src") out =
        pathResolve "/p" "./plugin-directives/index.ts" :=
  c2_bare_mapped_relative (FS.mk [] []) "/p" "/w" "/p/core/src/a.ts"
    "@pothos/plugin-directives" "./plugin-directives/index.ts"
    (by decide) (by decide) (by decide) (by decide) (by decide)

/-- C3 counterexample: for an exact-file fall-through (`./x.js` exists on
disk with its own extension), the specifier text is left unchanged and
then re-expressed by `path.relative`, which resolves the still-relative
text against the process working directory, not the referencing
directory.  With working directory `/w` the emitted specifier
`../../w/x.js` no longer denotes the file the original specifier denoted. -/
theorem c3_counterexample :
    resolveModuleSpecifier (FS.mk ["/p/a/x.js"] ["/p/a"]) "/p" "/w" "/p/a/b.ts" "./x.js" =
      Except.ok "../../w/x.js" ∧
    pathResolve (pathDirname "/p/a/b.ts") "../../w/x.js" ≠
      pathResolve (pathDirname "/p/a/b.ts") "./x.js" := by
  exact ⟨by decide, by decide⟩

/-- C3 (amended): in the exact-file fall-through case the specifier text is
left unchanged and re-expressed relative to the referencing directory
after being resolved against the process working directory; whenever the
working directory resolves the specifier to the same literal path (for
instance when the working directory is the referencing directory), the
emitted specifier denotes that same file and carries a relative-path
marker. -/
theorem c3_exact_file_roundtrip (fsys : FS) (packageDir cwd fileName mod : String)
    (hf : isCanonAbs fileName = true)
    (hm : strStarts mod '.' = true)
    (hex : fsys.existsSync (pathResolve (pathDirname fileName) mod) = true)
    (hnd : fsys.statIsDir (pathResolve (pathDirname fileName) mod) = false)
    (hts : fsys.existsSync (pathResolve (pathDirname fileName) mod ++ ".ts") = false)
    (hdts : fsys.existsSync (pathResolve (pathDirname fileName) mod ++ ".d.ts") = false)
    (hcwd : pathResolve cwd mod = pathResolve (pathDirname fileName) mod)
    (hne : pathResolve (pathDirname fileName) mod ≠ pathDirname fileName) :
    ∃ out, resolveModuleSpecifier fsys packageDir cwd fileName mod = Except.ok out ∧
      pathResolve (pathDirname fileName) out = pathResolve (pathDirname fileName) mod ∧
      strStarts out '.' = true := by
  obtain ⟨D, hDc, hDj⟩ := canonAbs_dirname_ex hf
  obtain ⟨ms, hmsc, hmp⟩ := modulePath_segs fileName mod hf hm
  rw [resolveRel_exact fsys packageDir cwd fileName mod hm hex hnd hts hdts]
  have hmod_abs : absSegsOf cwd mod = ms := by
    have h1 : joinAbs (absSegsOf cwd mod) = joinAbs ms := by
      rw [absSegsOf, if_bool_false (strStarts_dot_not_slash hm),
        ← pathResolve_rel_eq cwd mod hm, hcwd, hmp]
    have hgood1 : ∀ s ∈ absSegsOf cwd mod, canonSeg s = true := by
      rw [absSegsOf, if_bool_false (strStarts_dot_not_slash hm)]
      apply normSegs_good
      intro s hs
      rcases List.mem_append.mp hs with h | h
      · exact splitSegs_good cwd s h
      · exact splitSegs_good mod s h
    have h2 := congrArg splitSegs h1
    rw [splitSegs_joinAbs _ (fun s hs => goodSeg_of_canonSeg (hgood1 s hs)),
      splitSegs_joinAbs ms (fun s hs => goodSeg_of_canonSeg (hmsc s hs))] at h2
    exact h2
  have hdir_abs : absSegsOf cwd (pathDirname fileName) = D := by
    rw [hDj, absSegsOf, if_bool_true (strStarts_joinAbs D),
      splitSegs_joinAbs D (fun s hs => goodSeg_of_canonSeg (hDc s hs)),
      normSegs_canonical D hDc]
  have hrel : pathRelative cwd (pathDirname fileName) mod = joinRel (relSegs D ms) := by
    rw [pathRelative, hmod_abs, hdir_abs]
  have hrsne : relSegs D ms ≠ [] := by
    intro hnil
    have hDms : D = ms := relSegs_nil_imp_eq hmsc hnil
    exact hne ((hmp.trans (congrArg joinAbs hDms.symm)).trans hDj.symm)
  refine ⟨_, rfl, ?_, ?_⟩
  · rw [hrel, hmp, hDj,
      pathResolve_joinAbs_addDot D (relSegs D ms) hDc (relSegs_good D ms hmsc),
      foldl_normStep_relSegs_self D ms hmsc]
  · rw [hrel]
    cases hrs : relSegs D ms with
    | nil => exact absurd hrs hrsne
    | cons r rest =>
      exact addDotSlash_starts_dot r rest
        (relSegs_good D ms hmsc r (hrs ▸ List.mem_cons_self r rest))

/-- C3 witness: with the working directory equal to the referencing
directory, the unchanged exact-file specifier round-trips to the same file
and keeps its marker. -/
theorem c3_exact_file_roundtrip_witness :
    ∃ out, resolveModuleSpecifier (FS.mk ["/p/a/x.js"] ["/p/a"]) "/p" "/p/a" "/p/a/b.ts"
        "./x.js" = Except.ok out ∧
      pathResolve (pathDirname "/p/a/b.ts") out =
        pathResolve (pathDirname "/p/a/b.ts") "./x.js" ∧
      strStarts out '.' = true :=
  c3_exact_file_roundtrip (FS.mk ["/p/a/x.js"] ["/p/a"]) "/p" "/p/a" "/p/a/b.ts" "./x.js"
    (by decide) (by decide) (by decide) (by decide) (by decide) (by decide)
    (by decide) (by decide)

/-- C7 counterexample: the output path derivation removes only the FIRST
occurrence of the `/src` substring, not every interior `src` segment: for
`/p/a/src/b/src/c.ts` the implementation produces `/t/a/b/src/c.ts`, while
the specified all-segments removal would produce `/t/a/b/c.ts`. -/
theorem c7_counterexample :
    loadFileNewPath "/p" "/t" "/w" "/p/a/src/b/src/c.ts" = "/t/a/b/src/c.ts" ∧
    specMirroredPath "/p" "/t" "/p/a/src/b/src/c.ts" = "/t/a/b/c.ts" ∧
    loadFileNewPath "/p" "/t" "/w" "/p/a/src/b/src/c.ts" ≠
      specMirroredPath "/p" "/t" "/p/a/src/b/src/c.ts" := by
  exact ⟨by decide, by decide, by decide⟩

/-- C7 (amended): for a file under the source root, the output path is the
file's path mirrored under the output root (source-root prefix replaced by
the output-root prefix) with the first occurrence of the `/src` substring
removed — one removal, by substring match, not a removal of every interior
`src` segment. -/
theorem c7_output_path (cwd : String) (ps tsg rest : List String)
    (hps : ∀ s ∈ ps, canonSeg s = true) (hts : ∀ s ∈ tsg, canonSeg s = true)
    (hrest : ∀ s ∈ rest, canonSeg s = true) :
    loadFileNewPath (joinAbs ps) (joinAbs tsg) cwd (joinAbs (ps ++ rest)) =
      stripFirst (joinAbs (tsg ++ rest)) "/src" := by
  rw [loadFileNewPath]
  congr 1
  have hcat : ∀ s ∈ ps ++ rest, canonSeg s = true := by
    intro s hs
    rcases List.mem_append.mp hs with h | h
    · exact hps s h
    · exact hrest s h
  rw [pathRelative_abs cwd ps (ps ++ rest) hps hcat, relSegs_append ps rest,
    pathResolve_joinAbs_joinRel tsg rest hts (fun s hs => goodSeg_of_canonSeg (hrest s hs)),
    foldl_normStep_canon rest hrest tsg]

/-- C7 witness: `/p/core/src/a.ts` mirrored under `/t` becomes
`/t/core/a.ts` (the single `/src` stripped). -/
theorem c7_output_path_witness :
    loadFileNewPath (joinAbs ["p"]) (joinAbs ["t"]) "/w"
        (joinAbs (["p"] ++ ["core", "src", "a.ts"])) =
      stripFirst (joinAbs (["t"] ++ ["core", "src", "a.ts"])) "/src" :=
  c7_output_path "/w" ["p"] ["t"] ["core", "src", "a.ts"]
    (by decide) (by decide) (by decide)

/-- C8 counterexample: `getPackages` filters the raw directory listing only
by name, so a plain file (`README.md`) in the package root is returned even
though it is not a directory, contradicting the claim that every returned
entry is a directory. -/
theorem c8_counterexample :
    ¬ ∀ n ∈ getPackages (FS.mk ["/p/README.md"] ["/p", "/p/core"]) "/p",
        (FS.mk ["/p/README.md"] ["/p", "/p/core"]).statIsDir (pathJoin "/p" n) = true := by
  decide

/-- C8 (amended): package discovery returns exactly the immediate child
entries of the source root — files and directories alike — whose names are
not in the exclusion set; no directory check is performed. -/
theorem c8_packages_membership (fsys : FS) (root n : String) :
    n ∈ getPackages fsys root ↔ n ∈ fsys.readdirNames root ∧ n ∉ excludedPackages := by
  rw [getPackages, List.mem_filter]
  have hiff : ((!excludedPackages.contains n) = true) ↔ n ∉ excludedPackages := by
    rw [Bool.not_eq_true']
    constructor
    · intro h hmem
      rw [list_contains_iff_mem.mpr hmem] at h
      cases h
    · intro h
      cases hc : excludedPackages.contains n with
      | false => rfl
      | true => exact absurd (list_contains_iff_mem.mp hc) h
  rw [hiff]

/-- C9 counterexample: an import declaration that carries an assert clause
loses it when its specifier is rewritten — the factory update calls pass
`undefined` as the final assert-clause argument (lines 146 and 157) — so
not every other aspect of the declaration is preserved unchanged. -/
theorem c9_counterexample :
    visitTsNode (FS.mk [] []) "/p" "/w" "/p/core/src/a.ts"
        (.importDecl [] [] (some "clause") (.lit "graphql" false)
          (some "assert type json")) =
      Except.ok (.importDecl [] [] (some "clause")
        (.lit "https://cdn.skypack.dev/graphql?dts" true) none) ∧
    (some "assert type json" : Option String) ≠ none := by
  exact ⟨rfl, by decide⟩

/-- C9 (amended): the visitor rewrites only the string-literal specifier
of the import and export declarations, preserving the decorators,
modifiers, import clause, type-only flag and export clause — but not the
assert clause, which a rewritten declaration has unconditionally replaced
by `undefined`; declarations without a string-literal specifier pass
through entirely unchanged (assert clause included), and every other node
keeps its own content with only its children visited. -/
theorem c9_visitor_preservation (fsys : FS) (packageDir cwd fileName : String) :
    (∀ d m c t q a out,
      resolveModuleSpecifier fsys packageDir cwd fileName t = Except.ok out →
      visitTsNode fsys packageDir cwd fileName (.importDecl d m c (.lit t q) a) =
        Except.ok (.importDecl d m c (.lit out true) none)) ∧
    (∀ d m ty cl t q a out,
      resolveModuleSpecifier fsys packageDir cwd fileName t = Except.ok out →
      visitTsNode fsys packageDir cwd fileName
          (.exportDecl d m ty cl (some (.lit t q)) a) =
        Except.ok (.exportDecl d m ty cl (some (.lit out true)) none)) ∧
    (∀ d m c i a, visitTsNode fsys packageDir cwd fileName (.importDecl d m c (.nonLit i) a) =
      Except.ok (.importDecl d m c (.nonLit i) a)) ∧
    (∀ d m ty cl a, visitTsNode fsys packageDir cwd fileName (.exportDecl d m ty cl none a) =
      Except.ok (.exportDecl d m ty cl none a)) ∧
    (∀ d m ty cl i a,
      visitTsNode fsys packageDir cwd fileName (.exportDecl d m ty cl (some (.nonLit i)) a) =
        Except.ok (.exportDecl d m ty cl (some (.nonLit i)) a)) ∧
    (∀ k cs cs2, visitTsList fsys packageDir cwd fileName cs = Except.ok cs2 →
      visitTsNode fsys packageDir cwd fileName (.otherNode k cs) =
        Except.ok (.otherNode k cs2)) := by
  refine ⟨?_, ?_, ?_, ?_, ?_, ?_⟩
  · intro d m c t q a out h
    rw [visitTsNode, h]
    rfl
  · intro d m ty cl t q a out h
    rw [visitTsNode, h]
    rfl
  · intro d m c i a
    rw [visitTsNode]
  · intro d m ty cl a
    rw [visitTsNode]
    intro t q h
    exact Option.noConfusion h
  · intro d m ty cl i a
    rw [visitTsNode]
    intro t q h
    exact SpecExpr.noConfusion (Option.some.inj h)
  · intro k cs cs2 h
    rw [visitTsNode, h]
    rfl

/-- C9 witness: an import declaration with decorators, modifiers, a clause
and an assert clause keeps the first three while its `graphql` specifier
is rewritten to the mapped URL and the assert clause is dropped. -/
theorem c9_visitor_preservation_witness :
    visitTsNode (FS.mk [] []) "/p" "/w" "/p/core/src/a.ts"
        (.importDecl ["dec"] ["declare"] (some "clause") (.lit "graphql" false)
          (some "assert clause")) =
      Except.ok (.importDecl ["dec"] ["declare"] (some "clause")
        (.lit "https://cdn.skypack.dev/graphql?dts" true) none) :=
  (c9_visitor_preservation (FS.mk [] []) "/p" "/w" "/p/core/src/a.ts").1
    ["dec"] ["declare"] (some "clause") "graphql" false (some "assert clause")
    "https://cdn.skypack.dev/graphql?dts" (by decide)

/-- C10: when any enumerated file's transform fails, the whole
`getAllFiles` call fails before the write phase starts, so the run
performs no directory creation and no write: its only output-side effect
is the initial removal of the output root. -/
theorem c10_no_writes_on_failure (w : World) (packageDir targetDir cwd : String)
    (projects enumerated : List String)
    (h : ∃ f ∈ enumerated, ∃ e, loadFileM w packageDir targetDir cwd f = Except.error e) :
    buildOps w packageDir targetDir cwd projects enumerated = [FsOp.rmTree targetDir] := by
  obtain ⟨f, hf, e, he⟩ := h
  obtain ⟨e2, he2⟩ :=
    mapExcept_error (loadFileM w packageDir targetDir cwd) enumerated f hf ⟨e, he⟩
  rw [buildOps, getAllFilesM, he2]

/-- C10 witness: a run over one source file whose only import is the
unmapped bare specifier `left-pad` performs only the output-root removal. -/
theorem c10_no_writes_on_failure_witness :
    buildOps
      (World.mk (FS.mk [] [])
        (fun f => if f = "/p/core/src/a.ts"
          then [TsNode.importDecl [] [] none (SpecExpr.lit "left-pad" true) none] else [])
        (fun _ => []))
      "/p" "/t" "/w" ["core"] ["/p/core/src/a.ts"] = [FsOp.rmTree "/t"] :=
  c10_no_writes_on_failure
    (World.mk (FS.mk [] [])
      (fun f => if f = "/p/core/src/a.ts"
        then [TsNode.importDecl [] [] none (SpecExpr.lit "left-pad" true) none] else [])
      (fun _ => []))
    "/p" "/t" "/w" ["core"] ["/p/core/src/a.ts"]
    ⟨"/p/core/src/a.ts", List.mem_cons_self _ _,
      "Unknown module left-pad in /p/core/src/a.ts", by rfl⟩

end DenoBuild
